import Mathlib

/-
Verification of the apparun impact-model core (`apparun/impact_model.py`).

The embedding models Python values and dicts shallowly:
* a parameter value is either a single scalar or a list of scalars
  (`Union[List[Union[str, float]], Union[str, float]]`), with the scalar
  type kept abstract as a type parameter `α`;
* a Python `dict` is an association list with unique keys built by
  insertion (`pyDict`); dict comprehensions over an existing dict are
  `filter`/`map` (key uniqueness of the source dict makes this exact);
* a raising Python call inside a comprehension is a `(γ → Except PyErr δ)`
  function mapped by `mapExcept`, which stops at the first error exactly
  as the comprehension stops at the first raised exception.

External collaborators (`ImpactModelParams`, `ImpactTreeNode`, `NodeScores`
helpers, `SALib.analyze.sobol`) are not part of the given source file; they
are modelled from the spec where noted, with their behaviour kept abstract
(function-valued fields and arguments) wherever the spec leaves it open.
-/

namespace Apparun

/-- A parameter value: a single scalar, or a list of scalars (a batch).
`isinstance(v, list)` distinguishes them in the source. -/
inductive PVal (α : Type) where
  | single : α → PVal α
  | list : List α → PVal α
deriving DecidableEq

/-- `isinstance(parameter, list)`. -/
def PVal.isList : PVal α → Bool
  | .single _ => false
  | .list _ => true

/-- `len(v)` for a batch value. The source only ever applies `len` to
values of the list-valued partition, so the `single` case is junk (0). -/
def PVal.len : PVal α → Nat
  | .single _ => 0
  | .list l => l.length

/-- `[v] * L` for a single value: replication of a scalar into a batch of
length `L`. The source only applies it to values of the scalar-valued
partition, so the `list` case is junk (identity). -/
def PVal.broadcast (L : Nat) : PVal α → PVal α
  | .single v => .list (List.replicate L v)
  | .list l => .list l

/-- A Python dict, as an insertion-ordered association list. -/
abbrev PDict (β : Type) := List (String × β)

/-- The list of keys, in insertion order. -/
def dictKeys (d : PDict β) : List String := d.map Prod.fst

/-- `k in d`. -/
def hasKey (d : PDict β) (k : String) : Bool := d.any (fun p => p.1 = k)

/-- `d[k]` as an `Option` (the source's `d[k]` raises `KeyError` on
`none`; call sites model the raise explicitly). -/
def dictLookup (d : PDict β) (k : String) : Option β :=
  (d.find? (fun p => p.1 = k)).map Prod.snd

/-- `d[k] = v` on a dict value: updates the value in place if the key is
present (keeping its position), appends otherwise — Python dict insertion
semantics. -/
def dictInsert (d : PDict β) (k : String) (v : β) : PDict β :=
  if hasKey d k then d.map (fun p => if p.1 = k then (k, v) else p)
  else d ++ [(k, v)]

/-- `{k: v for (k, v) in l}`: build a dict by inserting the pairs of `l`
in order (later pairs overwrite earlier ones with the same key). -/
def pyDict (l : List (String × β)) : PDict β :=
  l.foldl (fun acc p => dictInsert acc p.1 p.2) []

/-- `{**a, **b}`: a fresh dict holding the items of `a` then of `b`. -/
def pyMerge (a b : List (String × β)) : PDict β := pyDict (a ++ b)

/-- `{name: value for table in tables for name, value in table.items()}`:
the merged dict of a list of tables, last write wins. -/
def mergeTables (tables : List (PDict β)) : PDict β := pyDict tables.flatten

/-- The value of the last pair of `l` with key `k`, if any: the value the
key ends up with after inserting the pairs of `l` in order. -/
def lastValue (l : List (String × β)) (k : String) : Option β :=
  (l.reverse.find? (fun p => p.1 = k)).map Prod.snd

/-- Python exceptions the modelled code can raise. -/
inductive PyErr where
  | keyError : String → PyErr
  | assertionError : PyErr
  | indexError : PyErr
deriving DecidableEq

/-- `[f x for x in xs]` where `f` may raise: the first error aborts the
whole comprehension. -/
def mapExcept (f : γ → Except PyErr δ) : List γ → Except PyErr (List δ)
  | [] => .ok []
  | x :: xs =>
    match f x with
    | .error e => .error e
    | .ok y =>
      match mapExcept f xs with
      | .error e => .error e
      | .ok ys => .ok (y :: ys)

/-- One impact-model parameter, as far as the given source reads it:
a name, a transform method mapping a (single or batch) value to a dict of
transformed values, and a default value. Modelled from the spec:
`ImpactModelParam` itself lives in `apparun/parameters.py`, which is not
part of the given source; the spec fixes exactly these three facets
(name, transform, default). -/
structure ImpactModelParam (α : Type) where
  name : String
  transform : PVal α → PDict (PVal α)
  default : α

/-- The parameter collection. Modelled from the spec:
`ImpactModelParams` lives in `apparun/parameters.py`, not in the given
source. The sampling primitives (`sobol_draw` composed with
`draw_to_distrib`) and the sensitivity problem descriptor's fixed name
order are kept abstract as fields, since the spec specifies only their
interfaces. -/
structure ImpactModelParams (α : Type) where
  params : List (ImpactModelParam α)
  sobol_draw : Nat → PDict (PVal α)
  draw_to_distrib : PDict (PVal α) → PDict (PVal α)
  sobol_problem_names : List String

/-- Modelled from the spec: `ImpactModelParams.get_missing_parameter_names`
("which of a supplied name-set is missing") returns the declared parameter
names absent from the supplied mapping. -/
def ImpactModelParams.get_missing_parameter_names (ps : ImpactModelParams α)
    (supplied : PDict (PVal α)) : List String :=
  (ps.params.filter (fun p => !hasKey supplied p.name)).map (fun p => p.name)

/-- Modelled from the spec: `ImpactModelParams.get_default_values`
("default values for a name-set") maps each requested declared name to its
default value. -/
def ImpactModelParams.get_default_values (ps : ImpactModelParams α)
    (names : List String) : PDict (PVal α) :=
  (ps.params.filter (fun p => p.name ∈ names)).map
    (fun p => (p.name, PVal.single p.default))

/-- Replace the declared parameters' default values positionally (used to
state that defaults are inert); everything else is kept. -/
def ImpactModelParams.withDefaults (ps : ImpactModelParams α) (ds : List α) :
    ImpactModelParams α :=
  { ps with
    params := (ps.params.zip ds).map (fun pd => { pd.1 with default := pd.2 }) }

/-- One tree node, as far as the given source reads it: name, properties,
optional parent (only the parent's name is ever read, so the reference is
modelled by that name), and a `compute(transformed_params, direct_impacts)`
method producing a dict from impact-method name to a score value of the
abstract type `σ`. Modelled from the spec: `ImpactTreeNode` lives in
`apparun/impact_tree.py`, not in the given source. -/
structure ImpactTreeNode (α σ : Type) where
  name : String
  properties : PDict String
  parent : Option String
  compute : PDict (PVal α) → Bool → PDict σ

/-- The model's tree: its root node and the flattened node list
`unnested_descendants` (modelled from the spec: "for every node in the
tree (flattened, no nested duplication)"; the flattening itself is
collaborator code). -/
structure ImpactTree (α σ : Type) where
  root : ImpactTreeNode α σ
  unnested_descendants : List (ImpactTreeNode α σ)

/-- A `NodeScores` record as the given source constructs it: node name,
node properties, parent name (empty string for the root), and the node's
score collection. -/
structure NodeScores (σ : Type) where
  name : String
  properties : PDict String
  parent : String
  lcia_scores : PDict σ
deriving DecidableEq

/-- One unpivoted sensitivity row as the given source constructs it. -/
structure SobolRecord (σ : Type) where
  node : String
  method : String
  parameter : String
  sobol_s1 : σ
deriving DecidableEq

/-- The impact model: the parameter collection and the tree (the metadata
field of the source is never read by the modelled methods and is
omitted). -/
structure ImpactModel (α σ : Type) where
  parameters : ImpactModelParams α
  tree : ImpactTree α σ

/-- `transformation_table`: `{parameter.name: parameter.transform for
parameter in self.parameters}`. -/
def ImpactModel.transformation_table (m : ImpactModel α σ) :
    PDict (PVal α → PDict (PVal α)) :=
  pyDict (m.parameters.params.map (fun p => (p.name, p.transform)))

/-- `self.transformation_table[name](value)`: raises `KeyError` when the
name has no registered transform. -/
def ImpactModel.applyTable (m : ImpactModel α σ) (entry : String × PVal α) :
    Except PyErr (PDict (PVal α)) :=
  match dictLookup m.transformation_table entry.1 with
  | none => .error (.keyError entry.1)
  | some t => .ok (t entry.2)

/-- `ImpactModel.transform_parameters`, line by line: partition the input
dict into list-valued and single-valued entries; with no list entry,
transform every entry and merge the returned tables; otherwise assert all
batch lengths agree (`min == max`), broadcast every single value to the
length of the first batch, transform and merge. -/
def ImpactModel.transform_parameters (m : ImpactModel α σ)
    (parameters : PDict (PVal α)) : Except PyErr (PDict (PVal α)) :=
  let list_parameters := parameters.filter (fun p => p.2.isList)
  let single_parameters := parameters.filter (fun p => !p.2.isList)
  if list_parameters.length = 0 then
    match mapExcept m.applyTable parameters with
    | .error e => .error e
    | .ok tables => .ok (mergeTables tables)
  else
    let lens := list_parameters.map (fun p => p.2.len)
    if lens.min? ≠ lens.max? then .error .assertionError
    else
      let L := (list_parameters.headD ("", PVal.list [])).2.len
      let full_list_parameters :=
        (single_parameters.map (fun p => (p.1, p.2.broadcast L))) ++
          list_parameters
      match mapExcept m.applyTable full_list_parameters with
      | .error e => .error e
      | .ok tables => .ok (mergeTables tables)

/-- `ImpactModel.get_scores`: fill in defaults for the missing declared
parameters, transform, and delegate to the tree root's compute (the
`direct_impacts` keyword is left at its default, `false`). -/
def ImpactModel.get_scores (m : ImpactModel α σ) (params : PDict (PVal α)) :
    Except PyErr (PDict σ) :=
  let missing_params := m.parameters.get_missing_parameter_names params
  let default_params := m.parameters.get_default_values missing_params
  match m.transform_parameters (pyMerge params default_params) with
  | .error e => .error e
  | .ok transformed_params => .ok (m.tree.root.compute transformed_params false)

/-- The per-node record list built inside `get_nodes_scores`: one
`NodeScores` per unnested descendant, parent name or `""` for the root,
`direct_impacts` set exactly when a grouping property was supplied. -/
def ImpactModel.node_scores_list (m : ImpactModel α σ)
    (by_property : Option String) (transformed_params : PDict (PVal α)) :
    List (NodeScores σ) :=
  m.tree.unnested_descendants.map (fun node =>
    { name := node.name
      properties := node.properties
      parent := match node.parent with
        | some parent_name => parent_name
        | none => ""
      lcia_scores := node.compute transformed_params by_property.isSome })

/-- `ImpactModel.get_nodes_scores`: defaults, transform, one record per
node, then optional pooling by a property value.
`NodeScores.combine_by_property` is collaborator code
(`apparun/tree_node.py`, not in the given source) and is passed in
abstractly. -/
def ImpactModel.get_nodes_scores (m : ImpactModel α σ)
    (combine_by_property : List (NodeScores σ) → String → List (NodeScores σ))
    (by_property : Option String) (params : PDict (PVal α)) :
    Except PyErr (List (NodeScores σ)) :=
  let missing_params := m.parameters.get_missing_parameter_names params
  let default_params := m.parameters.get_default_values missing_params
  match m.transform_parameters (pyMerge params default_params) with
  | .error e => .error e
  | .ok transformed_params =>
    let scores := m.node_scores_list by_property transformed_params
    match by_property with
    | some prop => .ok (combine_by_property scores prop)
    | none => .ok scores

/-- `self.parameters.sobol_problem["names"][i]`: raises `IndexError` out
of range. -/
def namesAt (names : List String) (i : Nat) : Except PyErr String :=
  match names[i]? with
  | some s => .ok s
  | none => .error .indexError

/-- The inner loop of `get_sobol_s1_indices` for one unit of analysis:
for each impact method of the score collection, run the Sobol analysis
with `calc_second_order=True`, and emit one record per position of the
returned `S1` vector, paired with the problem descriptor's name at the
same position. `sobol.analyze(problem, Y, calc_second_order)["S1"]` is
third-party code (SALib) and is passed in abstractly as `analyze`. -/
def ImpactModel.sobol_records_for (m : ImpactModel α σ)
    (analyze : List String → σ → Bool → List σ)
    (node_name : String) (scores : PDict σ) :
    Except PyErr (List (SobolRecord σ)) :=
  match mapExcept (fun ms =>
      mapExcept (fun iv =>
          match namesAt m.parameters.sobol_problem_names iv.1 with
          | .error e => .error e
          | .ok pname => .ok
              { node := node_name
                method := ms.1
                parameter := pname
                sobol_s1 := iv.2 })
        (analyze m.parameters.sobol_problem_names ms.2 true).enum)
    scores with
  | .error e => .error e
  | .ok recss => .ok recss.flatten

/-- `ImpactModel.get_sobol_s1_indices`: draw a Sobol design, map it to the
declared distributions, evaluate (per node when `all_nodes`, else the
root), and unpivot the first-order indices. -/
def ImpactModel.get_sobol_s1_indices (m : ImpactModel α σ)
    (analyze : List String → σ → Bool → List σ)
    (combine_by_property : List (NodeScores σ) → String → List (NodeScores σ))
    (n : Nat) (all_nodes : Bool) : Except PyErr (List (SobolRecord σ)) :=
  let samples := m.parameters.sobol_draw n
  let samples := m.parameters.draw_to_distrib samples
  if all_nodes then
    match m.get_nodes_scores combine_by_property none samples with
    | .error e => .error e
    | .ok lcia_scores =>
      match mapExcept
          (fun node_scores =>
            m.sobol_records_for analyze node_scores.name node_scores.lcia_scores)
          lcia_scores with
      | .error e => .error e
      | .ok recss => .ok recss.flatten
  else
    match m.get_scores samples with
    | .error e => .error e
    | .ok lcia_scores => m.sobol_records_for analyze m.tree.root.name lcia_scores

/-! ### State-passing re-embedding of `transform_parameters`

To state that `transform_parameters` mutates neither its argument nor any
other pre-existing dict object, the same code is embedded once more with
explicit object identity: a heap of dict objects, the argument passed as a
reference, every dict comprehension allocating a fresh cell, and the only
operation on the argument being a read. -/

/-- A heap of Python dict objects; a reference is an index into it. -/
abbrev Heap (α : Type) := List (PDict (PVal α))

/-- Errors of the heap embedding: a Python exception, or a dangling
reference (never reachable from a valid call). -/
inductive HErr where
  | invalidRef : HErr
  | py : PyErr → HErr
deriving DecidableEq

/-- `transform_parameters` over an explicit heap: reads the argument dict
at `r`, allocates each intermediate dict and the result as fresh cells,
and returns a reference to the result. Mirrors
`ImpactModel.transform_parameters` branch for branch. -/
def ImpactModel.transform_parameters_heap (m : ImpactModel α σ)
    (h₀ : Heap α) (r : Nat) : Heap α × Except HErr Nat :=
  match h₀[r]? with
  | none => (h₀, .error .invalidRef)
  | some parameters =>
    let list_parameters := parameters.filter (fun p => p.2.isList)
    let single_parameters := parameters.filter (fun p => !p.2.isList)
    let h₁ := h₀ ++ [list_parameters, single_parameters]
    if list_parameters.length = 0 then
      match mapExcept m.applyTable parameters with
      | .error e => (h₁, .error (.py e))
      | .ok tables => (h₁ ++ [mergeTables tables], .ok h₁.length)
    else
      let lens := list_parameters.map (fun p => p.2.len)
      if lens.min? ≠ lens.max? then (h₁, .error (.py .assertionError))
      else
        let L := (list_parameters.headD ("", PVal.list [])).2.len
        let full_list_parameters :=
          (single_parameters.map (fun p => (p.1, p.2.broadcast L))) ++
            list_parameters
        let h₂ := h₁ ++ [full_list_parameters]
        match mapExcept m.applyTable full_list_parameters with
        | .error e => (h₂, .error (.py e))
        | .ok tables => (h₂ ++ [mergeTables tables], .ok h₂.length)

/-! ### Basic dictionary lemmas -/

theorem hasKey_iff_mem {d : PDict β} {k : String} :
    hasKey d k = true ↔ ∃ v, (k, v) ∈ d := by
  simp only [hasKey, List.any_eq_true, decide_eq_true_eq]
  constructor
  · rintro ⟨⟨k1, v⟩, hmem, hk⟩
    exact ⟨v, hk ▸ hmem⟩
  · rintro ⟨v, hmem⟩
    exact ⟨(k, v), hmem, rfl⟩

theorem mem_dictInsert {d : PDict β} {k : String} {v : β} {q : String × β} :
    q ∈ dictInsert d k v → q ∈ d ∨ q = (k, v) := by
  unfold dictInsert
  split
  · intro hq
    rcases List.mem_map.mp hq with ⟨p, hp, hpq⟩
    by_cases hk : p.1 = k
    · simp only [hk, if_pos rfl] at hpq
      exact Or.inr hpq.symm
    · simp only [if_neg hk] at hpq
      exact Or.inl (hpq ▸ hp)
  · intro hq
    rcases List.mem_append.mp hq with h | h
    · exact Or.inl h
    · exact Or.inr (List.mem_singleton.mp h)

/-- Every entry of a built dict is one of the inserted pairs. -/
theorem mem_pyDict {l : List (String × β)} {q : String × β} :
    q ∈ pyDict l → q ∈ l := by
  suffices h : ∀ (acc : PDict β),
      q ∈ l.foldl (fun acc p => dictInsert acc p.1 p.2) acc → q ∈ acc ∨ q ∈ l by
    intro hq
    rcases h [] hq with h0 | h0
    · cases h0
    · exact h0
  induction l with
  | nil => intro acc hq; exact Or.inl hq
  | cons p rest ih =>
    intro acc hq
    rcases ih (dictInsert acc p.1 p.2) hq with h0 | h0
    · rcases mem_dictInsert h0 with h1 | h1
      · exact Or.inl h1
      · exact Or.inr (by simp [h1])
    · exact Or.inr (List.mem_cons_of_mem _ h0)

/-- `dictLookup` is `isSome` exactly on present keys. -/
theorem dictLookup_isSome {d : PDict β} {k : String} :
    (dictLookup d k).isSome = hasKey d k := by
  unfold dictLookup hasKey
  rw [Bool.eq_iff_iff]
  simp [Option.isSome_map, List.find?_isSome, List.any_eq_true]

theorem dictLookup_mem {d : PDict β} {k : String} {v : β}
    (h : dictLookup d k = some v) : (k, v) ∈ d := by
  unfold dictLookup at h
  rcases Option.map_eq_some'.mp h with ⟨q, hq, hqv⟩
  have hqd := List.mem_of_find?_eq_some hq
  have hqk : q.1 = k := by simpa using List.find?_some hq
  have : q = (k, v) := by
    cases q
    simp only [Prod.mk.injEq]
    exact ⟨hqk, hqv⟩
  exact this ▸ hqd

theorem find?_map_update_ne {d : PDict β} {k k1 : String} {v : β}
    (hne : k1 ≠ k) :
    ((d.map (fun p => if p.1 = k then (k, v) else p)).find?
        (fun q => q.1 = k1)) =
      d.find? (fun q => q.1 = k1) := by
  induction d with
  | nil => rfl
  | cons p rest ih =>
    by_cases hp : p.1 = k
    · rw [List.map_cons, if_pos hp, List.find?_cons_of_neg, List.find?_cons_of_neg]
      · exact ih
      · simp only [decide_eq_true_eq]
        exact fun hc => hne ((hp.symm.trans hc)).symm
      · simp only [decide_eq_true_eq]
        exact fun hc => hne hc.symm
    · rw [List.map_cons, if_neg hp]
      by_cases hq : p.1 = k1
      · rw [List.find?_cons_of_pos, List.find?_cons_of_pos] <;> simp [hq]
      · rw [List.find?_cons_of_neg, List.find?_cons_of_neg]
        · exact ih
        · simpa using hq
        · simpa using hq

theorem find?_map_update_self {d : PDict β} {k : String} {v : β} :
    ((d.map (fun p => if p.1 = k then (k, v) else p)).find?
        (fun q => q.1 = k)) =
      (d.find? (fun q => q.1 = k)).map (fun _ => (k, v)) := by
  induction d with
  | nil => rfl
  | cons p rest ih =>
    by_cases hp : p.1 = k
    · rw [List.map_cons, if_pos hp, List.find?_cons_of_pos, List.find?_cons_of_pos]
      · simp
      · simpa using hp
      · simp
    · rw [List.map_cons, if_neg hp, List.find?_cons_of_neg, List.find?_cons_of_neg]
      · exact ih
      · simpa using hp
      · simpa using hp

theorem dictLookup_dictInsert {d : PDict β} {k k1 : String} {v : β} :
    dictLookup (dictInsert d k v) k1 =
      if k1 = k then some v else dictLookup d k1 := by
  unfold dictInsert
  split
  · rename_i hhas
    by_cases hk : k1 = k
    · subst hk
      rw [if_pos rfl]
      unfold dictLookup
      rw [find?_map_update_self]
      cases hfind : d.find? (fun p => decide (p.1 = k1)) with
      | none =>
        exfalso
        rcases hasKey_iff_mem.mp hhas with ⟨v1, hv1⟩
        have hs : (d.find? (fun p => decide (p.1 = k1))).isSome = true :=
          List.find?_isSome.mpr ⟨(k1, v1), hv1, by simp⟩
        rw [hfind] at hs
        simp at hs
      | some q => simp
    · rw [if_neg hk]
      unfold dictLookup
      rw [find?_map_update_ne hk]
  · rename_i hhas
    by_cases hk : k1 = k
    · subst hk
      have hnone : d.find? (fun p => decide (p.1 = k1)) = none := by
        rw [List.find?_eq_none]
        intro p hp hdec
        exact hhas (show hasKey d k1 = true from
          List.any_eq_true.mpr ⟨p, hp, hdec⟩)
      simp [dictLookup, List.find?_append, hnone, List.find?]
    · rw [if_neg hk]
      unfold dictLookup
      rw [List.find?_append]
      have hsing : List.find? (fun p => decide (p.1 = k1)) [(k, v)] = none := by
        have hne : ¬ ((k, v).1 = k1) := fun hc => hk hc.symm
        simp only [List.find?, decide_eq_false hne]
      rw [hsing, Option.or_none]

theorem option_map_or {a b : Option γ} {f : γ → δ} :
    (a.or b).map f = (a.map f).or (b.map f) := by
  cases a <;> simp

theorem option_isSome_map {a : Option γ} {f : γ → δ} :
    (a.map f).isSome = a.isSome := by
  cases a <;> rfl

theorem dictLookup_foldl_insert {l : List (String × β)} {acc : PDict β}
    {k : String} :
    dictLookup (l.foldl (fun acc p => dictInsert acc p.1 p.2) acc) k
      = (lastValue l k).or (dictLookup acc k) := by
  induction l generalizing acc with
  | nil => simp [lastValue]
  | cons p rest ih =>
    rw [List.foldl_cons, ih]
    have hlv : lastValue (p :: rest) k
        = (lastValue rest k).or (if k = p.1 then some p.2 else none) := by
      unfold lastValue
      rw [List.reverse_cons, List.find?_append, option_map_or]
      congr 1
      by_cases hk : p.1 = k
      · rw [List.find?_cons_of_pos]
        · rw [if_pos hk.symm]
          simp
        · simpa using hk
      · rw [List.find?_cons_of_neg]
        · have : ¬ (k = p.1) := fun hc => hk hc.symm
          simp [List.find?, if_neg this]
        · simpa using hk
    rw [hlv, Option.or_assoc]
    congr 1
    rw [dictLookup_dictInsert]
    by_cases hk : k = p.1 <;> simp [hk]

theorem dictLookup_pyDict {l : List (String × β)} {k : String} :
    dictLookup (pyDict l) k = lastValue l k := by
  unfold pyDict
  rw [dictLookup_foldl_insert]
  simp [dictLookup]

theorem hasKey_pyDict_iff {l : List (String × β)} {k : String} :
    hasKey (pyDict l) k = true ↔ ∃ q ∈ l, q.1 = k := by
  rw [← dictLookup_isSome, dictLookup_pyDict]
  unfold lastValue
  rw [option_isSome_map, List.find?_isSome]
  simp [List.mem_reverse]

theorem mem_mergeTables {tables : List (PDict β)} {q : String × β}
    (h : q ∈ mergeTables tables) : ∃ t ∈ tables, q ∈ t :=
  List.mem_flatten.mp (mem_pyDict h)

theorem hasKey_mergeTables_iff {tables : List (PDict β)} {k : String} :
    hasKey (mergeTables tables) k = true ↔ ∃ t ∈ tables, hasKey t k = true := by
  unfold mergeTables
  rw [hasKey_pyDict_iff]
  constructor
  · rintro ⟨q, hq, hk⟩
    rcases List.mem_flatten.mp hq with ⟨t, ht, hqt⟩
    exact ⟨t, ht, List.any_eq_true.mpr ⟨q, hqt, by simpa using hk⟩⟩
  · rintro ⟨t, ht, hkt⟩
    rcases hasKey_iff_mem.mp hkt with ⟨v, hv⟩
    exact ⟨(k, v), List.mem_flatten.mpr ⟨t, ht, hv⟩, rfl⟩

/-- The merged tables' value at `k` is the last write across the
flattened tables. -/
theorem dictLookup_mergeTables {tables : List (PDict β)} {k : String} :
    dictLookup (mergeTables tables) k = lastValue tables.flatten k :=
  dictLookup_pyDict

/-! ### `mapExcept` lemmas -/

theorem mapExcept_ok_iff {f : γ → Except PyErr δ} {xs : List γ} {ys : List δ} :
    mapExcept f xs = .ok ys ↔ List.Forall₂ (fun x y => f x = .ok y) xs ys := by
  induction xs generalizing ys with
  | nil =>
    constructor
    · intro h
      obtain rfl : [] = ys := by simpa [mapExcept] using h
      exact List.Forall₂.nil
    · intro h
      cases h
      rfl
  | cons x rest ih =>
    constructor
    · intro h
      unfold mapExcept at h
      cases hfx : f x with
      | error e => rw [hfx] at h; cases h
      | ok y =>
        rw [hfx] at h
        cases hrest : mapExcept f rest with
        | error e => rw [hrest] at h; cases h
        | ok ys1 =>
          rw [hrest] at h
          obtain rfl : y :: ys1 = ys := by simpa using h
          exact List.Forall₂.cons hfx (ih.mp hrest)
    · intro h
      cases h with
      | cons h1 h2 =>
        unfold mapExcept
        rw [h1, ih.mpr h2]

theorem mapExcept_ok_length {f : γ → Except PyErr δ} {xs : List γ}
    {ys : List δ} (h : mapExcept f xs = .ok ys) : ys.length = xs.length :=
  (mapExcept_ok_iff.mp h).length_eq.symm

theorem forall₂_mem_left {R : γ → δ → Prop} {xs : List γ} {ys : List δ}
    (h : List.Forall₂ R xs ys) {x : γ} (hx : x ∈ xs) : ∃ y ∈ ys, R x y := by
  induction h with
  | nil => cases hx
  | cons h1 h2 ih =>
    rcases List.mem_cons.mp hx with rfl | hx2
    · exact ⟨_, List.mem_cons_self _ _, h1⟩
    · rcases ih hx2 with ⟨y, hy, hR⟩
      exact ⟨y, List.mem_cons_of_mem _ hy, hR⟩

theorem forall₂_mem_right {R : γ → δ → Prop} {xs : List γ} {ys : List δ}
    (h : List.Forall₂ R xs ys) {y : δ} (hy : y ∈ ys) : ∃ x ∈ xs, R x y := by
  induction h with
  | nil => cases hy
  | cons h1 h2 ih =>
    rcases List.mem_cons.mp hy with rfl | hy2
    · exact ⟨_, List.mem_cons_self _ _, h1⟩
    · rcases ih hy2 with ⟨x, hx, hR⟩
      exact ⟨x, List.mem_cons_of_mem _ hx, hR⟩

theorem mapExcept_exists_ok {f : γ → Except PyErr δ} {xs : List γ}
    (h : ∀ x ∈ xs, ∃ y, f x = .ok y) : ∃ ys, mapExcept f xs = .ok ys := by
  induction xs with
  | nil => exact ⟨[], rfl⟩
  | cons x rest ih =>
    rcases h x (List.mem_cons_self _ _) with ⟨y, hy⟩
    rcases ih (fun z hz => h z (List.mem_cons_of_mem _ hz)) with ⟨ys, hys⟩
    exact ⟨y :: ys, by unfold mapExcept; rw [hy, hys]⟩

theorem mapExcept_error_of_mem {f : γ → Except PyErr δ} {xs : List γ}
    {x : γ} {e : PyErr} (hx : x ∈ xs) (hfx : f x = .error e) :
    ∃ e1, mapExcept f xs = .error e1 := by
  induction xs with
  | nil => cases hx
  | cons z rest ih =>
    cases hfz : f z with
    | error e1 => exact ⟨e1, by unfold mapExcept; rw [hfz]⟩
    | ok y =>
      rcases List.mem_cons.mp hx with rfl | hx2
      · rw [hfx] at hfz; cases hfz
      · rcases ih hx2 with ⟨e1, he1⟩
        exact ⟨e1, by unfold mapExcept; rw [hfz, he1]⟩

/-! ### `min?`/`max?` on lists of equal naturals -/

theorem min?_all_eq {L : Nat} :
    ∀ {lst : List Nat}, lst ≠ [] → (∀ x ∈ lst, x = L) → lst.min? = some L
  | [], hne, _ => absurd rfl hne
  | [x], _, h => by
    rw [List.min?_cons]
    simp [h x (List.mem_cons_self _ _)]
  | (x :: y :: rest), _, h => by
    have hmr := min?_all_eq (show (y :: rest : List Nat) ≠ [] by simp)
      (fun z hz => h z (List.mem_cons_of_mem _ hz))
    rw [List.min?_cons, hmr]
    simp [h x (List.mem_cons_self _ _)]

theorem max?_all_eq {L : Nat} :
    ∀ {lst : List Nat}, lst ≠ [] → (∀ x ∈ lst, x = L) → lst.max? = some L
  | [], hne, _ => absurd rfl hne
  | [x], _, h => by
    rw [List.max?_cons]
    simp [h x (List.mem_cons_self _ _)]
  | (x :: y :: rest), _, h => by
    have hmr := max?_all_eq (show (y :: rest : List Nat) ≠ [] by simp)
      (fun z hz => h z (List.mem_cons_of_mem _ hz))
    rw [List.max?_cons, hmr]
    simp [h x (List.mem_cons_self _ _)]

/-- On a list of naturals with two distinct members, `min` and `max`
disagree. -/
theorem min?_ne_max?_of_two {lst : List Nat} {a b : Nat}
    (ha : a ∈ lst) (hb : b ∈ lst) (hab : a ≠ b) : lst.min? ≠ lst.max? := by
  intro heq
  cases hmin : lst.min? with
  | none =>
    rw [List.min?_eq_none_iff] at hmin
    subst hmin
    cases ha
  | some c =>
    have hmax : lst.max? = some c := by rw [← heq, hmin]
    have hminle := (List.min?_eq_some_iff (fun a => le_refl a)
      (fun a b => min_choice a b) (fun a b c => le_min_iff)).mp hmin
    have hmaxle := (List.max?_eq_some_iff (fun a => le_refl a)
      (fun a b => max_choice a b) (fun a b c => max_le_iff)).mp hmax
    have h1 : a = c := le_antisymm (hmaxle.2 a ha) (hminle.2 a ha)
    have h2 : b = c := le_antisymm (hmaxle.2 b hb) (hminle.2 b hb)
    exact hab (h1.trans h2.symm)

/-! ### Claim theorems -/

/-- Core of the unequal-batch-length failure, shared by the claims that
exercise the `min == max` assertion. -/
theorem transform_parameters_assert_fails (m : ImpactModel α σ)
    (parameters : PDict (PVal α)) {k1 k2 : String} {l1 l2 : List α}
    (h1 : (k1, PVal.list l1) ∈ parameters)
    (h2 : (k2, PVal.list l2) ∈ parameters)
    (hne : l1.length ≠ l2.length) :
    m.transform_parameters parameters = .error .assertionError := by
  have hm1 : (k1, PVal.list l1) ∈ parameters.filter (fun p => p.2.isList) :=
    List.mem_filter.mpr ⟨h1, rfl⟩
  have hm2 : (k2, PVal.list l2) ∈ parameters.filter (fun p => p.2.isList) :=
    List.mem_filter.mpr ⟨h2, rfl⟩
  have hlen0 : ¬ (parameters.filter (fun p => p.2.isList)).length = 0 := by
    intro hc
    rw [List.length_eq_zero] at hc
    rw [hc] at hm1
    cases hm1
  have hmm :
      ((parameters.filter (fun p => p.2.isList)).map (fun p => p.2.len)).min?
        ≠ ((parameters.filter (fun p => p.2.isList)).map
            (fun p => p.2.len)).max? :=
    min?_ne_max?_of_two (a := l1.length) (b := l2.length)
      (List.mem_map.mpr ⟨_, hm1, rfl⟩) (List.mem_map.mpr ⟨_, hm2, rfl⟩) hne
  simp only [ImpactModel.transform_parameters]
  rw [if_neg hlen0, if_pos hmm]

/-- A two-parameter model over integer scalars with simple renaming
transforms and a one-node tree, used to instantiate the theorems at
concrete inputs. -/
def sampleModel : ImpactModel Int Int :=
  { parameters :=
      { params :=
          [ { name := "a", transform := fun v => [("a_t", v)], default := 3 },
            { name := "b", transform := fun v => [("b_t", v)], default := 4 } ],
        sobol_draw := fun _ => [("a", PVal.list [0, 1]), ("b", PVal.list [1, 0])],
        draw_to_distrib := fun s => s,
        sobol_problem_names := ["a", "b"] },
    tree :=
      { root :=
          { name := "fu", properties := [("family", "root")], parent := none,
            compute := fun ps _ => [("gwp", (dictLookup ps "a_t").elim 0
              (fun v => match v with | .single x => x | .list l => l.length))] },
        unnested_descendants :=
          [ { name := "fu", properties := [("family", "root")], parent := none,
              compute := fun _ _ => [("gwp", 1)] },
            { name := "leaf", properties := [("family", "part")],
              parent := some "fu",
              compute := fun _ _ => [("gwp", 2)] } ] } }

/-- C2: a parameter mapping with two batch values of different lengths
fails the common-length assertion: `transform_parameters` raises
`AssertionError` and returns no transformed mapping. -/
theorem transform_rejects_unequal_batches (m : ImpactModel α σ)
    (parameters : PDict (PVal α)) {k1 k2 : String} {l1 l2 : List α}
    (h1 : (k1, PVal.list l1) ∈ parameters)
    (h2 : (k2, PVal.list l2) ∈ parameters)
    (hne : l1.length ≠ l2.length) :
    m.transform_parameters parameters = .error .assertionError :=
  transform_parameters_assert_fails m parameters h1 h2 hne

theorem transform_rejects_unequal_batches_witness :
    sampleModel.transform_parameters
        [("a", PVal.list [1, 2, 3]), ("b", PVal.list [1, 2])]
      = .error .assertionError :=
  @transform_rejects_unequal_batches Int Int sampleModel
    [("a", PVal.list [1, 2, 3]), ("b", PVal.list [1, 2])]
    "a" "b" [1, 2, 3] [1, 2]
    (by decide) (by decide) (by decide)

/-- C5 counterexample: with one batch of length 1 and one batch of
length 3, the call does not succeed and nothing is broadcast: the
common-length assertion (`min == max`) fails, because a length-1 batch is
just a batch whose length differs from 3. -/
theorem length_one_batch_counterexample :
    sampleModel.transform_parameters
        [("a", PVal.list [7]), ("b", PVal.list [1, 2, 3])]
      = .error .assertionError := by rfl

/-- C5 (amended): a batch of length 1 mixed with batches of a longer
common length `L ≠ 1` is rejected by the common-length assertion, exactly
like any other unequal-length mix; a length-1 batch is not broadcast. -/
theorem length_one_batch_mixed_fails (m : ImpactModel α σ)
    (parameters : PDict (PVal α)) {k1 k2 : String} {l1 l2 : List α} {L : Nat}
    (h1 : (k1, PVal.list l1) ∈ parameters) (hl1 : l1.length = 1)
    (h2 : (k2, PVal.list l2) ∈ parameters) (hl2 : l2.length = L)
    (hL : L ≠ 1) :
    m.transform_parameters parameters = .error .assertionError :=
  transform_parameters_assert_fails m parameters h1 h2
    (by rw [hl1, hl2]; exact fun hc => hL hc.symm)

theorem length_one_batch_mixed_fails_witness :
    sampleModel.transform_parameters
        [("a", PVal.list [7]), ("b", PVal.list [4, 5, 6])]
      = .error .assertionError :=
  @length_one_batch_mixed_fails Int Int sampleModel
    [("a", PVal.list [7]), ("b", PVal.list [4, 5, 6])]
    "a" "b" [7] [4, 5, 6] 3
    (by decide) (by decide) (by decide) (by decide) (by decide)

/-- C6: with no batch-valued entry, `transform_parameters` returns the
merge of the per-parameter transform outputs (`tables`, computed by
applying each parameter's transform to its scalar value, in the input's
iteration order): the merged dict's value at each key is the last write
across the concatenated tables, and its key set is the union of the
tables' key sets. -/
theorem transform_scalar_only_merge (m : ImpactModel α σ)
    (parameters : PDict (PVal α)) (tables : List (PDict (PVal α)))
    (hsingle : ∀ q ∈ parameters, q.2.isList = false)
    (htab : mapExcept m.applyTable parameters = .ok tables) :
    m.transform_parameters parameters = .ok (mergeTables tables)
    ∧ (∀ k, dictLookup (mergeTables tables) k = lastValue tables.flatten k)
    ∧ (∀ k, hasKey (mergeTables tables) k = true
        ↔ ∃ t ∈ tables, hasKey t k = true) := by
  refine ⟨?_, fun k => dictLookup_mergeTables, fun k => hasKey_mergeTables_iff⟩
  have hfil : parameters.filter (fun p => p.2.isList) = [] := by
    rw [List.filter_eq_nil_iff]
    intro q hq
    simp [hsingle q hq]
  simp only [ImpactModel.transform_parameters]
  rw [hfil]
  rw [if_pos (show ([] : PDict (PVal α)).length = 0 from rfl), htab]

/-- A scalar-only input and the transform tables it produces on
`sampleModel`, for the concrete instantiations. -/
def sampleScalarInput : PDict (PVal Int) :=
  [("a", PVal.single 5), ("b", PVal.single 6)]

def sampleTables : List (PDict (PVal Int)) :=
  [[("a_t", PVal.single 5)], [("b_t", PVal.single 6)]]

theorem transform_scalar_only_merge_witness :
    sampleModel.transform_parameters sampleScalarInput
        = .ok (mergeTables sampleTables)
    ∧ (∀ k, dictLookup (mergeTables sampleTables) k
        = lastValue sampleTables.flatten k)
    ∧ (∀ k, hasKey (mergeTables sampleTables) k = true
        ↔ ∃ t ∈ sampleTables, hasKey t k = true) :=
  transform_scalar_only_merge sampleModel sampleScalarInput sampleTables
    (by decide) (by rfl)

/-- A key of the input dict with no entry in the transformation table
makes `transform_parameters` fail (with a `KeyError`, or with the batch
assertion failing first). -/
theorem transform_parameters_error_of_unknown (m : ImpactModel α σ)
    (d : PDict (PVal α)) {k : String}
    (hk : hasKey d k = true)
    (hnk : hasKey m.transformation_table k = false) :
    ∃ e, m.transform_parameters d = .error e := by
  rcases hasKey_iff_mem.mp hk with ⟨v, hv⟩
  have hnone : dictLookup m.transformation_table k = none := by
    cases hl : dictLookup m.transformation_table k with
    | none => rfl
    | some t =>
      have hs := dictLookup_isSome (d := m.transformation_table) (k := k)
      rw [hl, hnk] at hs
      simp at hs
  have happ : ∀ v2 : PVal α, m.applyTable (k, v2) = .error (.keyError k) := by
    intro v2
    simp [ImpactModel.applyTable, hnone]
  by_cases h0 : (d.filter (fun p => p.2.isList)).length = 0
  · rcases mapExcept_error_of_mem hv (happ v) with ⟨e1, he1⟩
    refine ⟨e1, ?_⟩
    simp only [ImpactModel.transform_parameters]
    rw [if_pos h0, he1]
  · by_cases hmm : ((d.filter (fun p => p.2.isList)).map (fun p => p.2.len)).min?
        ≠ ((d.filter (fun p => p.2.isList)).map (fun p => p.2.len)).max?
    · refine ⟨.assertionError, ?_⟩
      simp only [ImpactModel.transform_parameters]
      rw [if_neg h0, if_pos hmm]
    · have hfull : ∀ L : Nat, ∃ v2, (k, v2) ∈
          ((d.filter (fun p => !p.2.isList)).map
              (fun p => (p.1, p.2.broadcast L))
            ++ d.filter (fun p => p.2.isList)) := by
        intro L
        by_cases hvl : v.isList = true
        · exact ⟨v, List.mem_append.mpr
            (Or.inr (List.mem_filter.mpr ⟨hv, hvl⟩))⟩
        · refine ⟨v.broadcast L, List.mem_append.mpr (Or.inl ?_)⟩
          exact List.mem_map.mpr
            ⟨(k, v), List.mem_filter.mpr ⟨hv, by simp [hvl]⟩, rfl⟩
      rcases hfull ((d.filter (fun p => p.2.isList)).headD
          ("", PVal.list [])).2.len with ⟨v2, hv2⟩
      rcases mapExcept_error_of_mem hv2 (happ v2) with ⟨e1, he1⟩
      refine ⟨e1, ?_⟩
      simp only [ImpactModel.transform_parameters]
      rw [if_neg h0, if_neg hmm, he1]

/-- C9: when the merged parameter mapping (caller input plus defaults for
the missing declared names) contains a name with no registered transform,
both `get_scores` and `get_nodes_scores` fail with the error raised
during parameter transformation — the tree compute is never reached,
since the failing transform short-circuits both methods. -/
theorem unknown_parameter_name_errors (m : ImpactModel α σ)
    (combine_by_property : List (NodeScores σ) → String → List (NodeScores σ))
    (by_property : Option String) (params : PDict (PVal α)) {k : String}
    (hk : hasKey (pyMerge params (m.parameters.get_default_values
        (m.parameters.get_missing_parameter_names params))) k = true)
    (hnk : hasKey m.transformation_table k = false) :
    ∃ e, m.transform_parameters (pyMerge params
          (m.parameters.get_default_values
            (m.parameters.get_missing_parameter_names params))) = .error e
      ∧ m.get_scores params = .error e
      ∧ m.get_nodes_scores combine_by_property by_property params = .error e := by
  rcases transform_parameters_error_of_unknown m _ hk hnk with ⟨e, he⟩
  refine ⟨e, he, ?_, ?_⟩
  · simp only [ImpactModel.get_scores]
    rw [he]
  · simp only [ImpactModel.get_nodes_scores]
    rw [he]

theorem unknown_parameter_name_errors_witness :
    ∃ e, sampleModel.transform_parameters (pyMerge [("c", PVal.single 1)]
          (sampleModel.parameters.get_default_values
            (sampleModel.parameters.get_missing_parameter_names
              [("c", PVal.single 1)]))) = .error e
      ∧ sampleModel.get_scores [("c", PVal.single 1)] = .error e
      ∧ sampleModel.get_nodes_scores (fun s _ => s) none [("c", PVal.single 1)]
          = .error e :=
  unknown_parameter_name_errors sampleModel (fun s _ => s) none
    [("c", PVal.single 1)] (k := "c") (by decide) (by rfl)

theorem isList_eq_false_exists {v : PVal α} (h : v.isList = false) :
    ∃ x, v = PVal.single x := by
  cases v with
  | single x => exact ⟨x, rfl⟩
  | list l => simp [PVal.isList] at h

theorem isList_eq_true_exists {v : PVal α} (h : v.isList = true) :
    ∃ l, v = PVal.list l := by
  cases v with
  | single x => simp [PVal.isList] at h
  | list l => exact ⟨l, rfl⟩

/-- Reduction of `transform_parameters` in the batch branch when the
length assertion holds. -/
theorem transform_parameters_batch_reduce (m : ImpactModel α σ)
    (d : PDict (PVal α))
    (h0 : ¬ (d.filter (fun p => p.2.isList)).length = 0)
    (hmm : ¬ (((d.filter (fun p => p.2.isList)).map (fun p => p.2.len)).min?
        ≠ ((d.filter (fun p => p.2.isList)).map (fun p => p.2.len)).max?)) :
    m.transform_parameters d =
      match mapExcept m.applyTable
          ((d.filter (fun p => !p.2.isList)).map
              (fun p => (p.1, p.2.broadcast
                ((d.filter (fun p => p.2.isList)).headD
                  ("", PVal.list [])).2.len))
            ++ d.filter (fun p => p.2.isList)) with
      | .error e => .error e
      | .ok tables => .ok (mergeTables tables) := by
  simp only [ImpactModel.transform_parameters]
  rw [if_neg h0, if_neg hmm]

set_option maxHeartbeats 1600000 in
/-- C1: with at least one batch entry, all batches of the same length
`L`, every input name registered in the transformation table, and every
transform mapping length-`L` batches to length-`L` batch outputs:
the call behaves exactly as if every scalar entry had been replaced by
its length-`L` replication (scalars are broadcast before their transform
is applied), it succeeds, and every value of the returned mapping is a
batch of length `L`. -/
theorem transform_batch_broadcast (m : ImpactModel α σ)
    (parameters : PDict (PVal α)) (L : Nat)
    (hbatch : ∃ q ∈ parameters, q.2.isList = true)
    (hlen : ∀ q ∈ parameters, q.2.isList = true → q.2.len = L)
    (hlook : ∀ q ∈ parameters, hasKey m.transformation_table q.1 = true)
    (htrans : ∀ p ∈ m.parameters.params, ∀ l : List α, l.length = L →
        ∀ q ∈ p.transform (PVal.list l),
          ∃ out, q.2 = PVal.list out ∧ out.length = L) :
    m.transform_parameters parameters
      = m.transform_parameters
          ((parameters.filter (fun p => !p.2.isList)).map
              (fun p => (p.1, p.2.broadcast L))
            ++ parameters.filter (fun p => p.2.isList))
    ∧ ∃ d, m.transform_parameters parameters = .ok d
        ∧ ∀ q ∈ d, ∃ out, q.2 = PVal.list out ∧ out.length = L := by
  rcases hbatch with ⟨q1, hq1, hq1l⟩
  have hq1f : q1 ∈ parameters.filter (fun p => p.2.isList) :=
    List.mem_filter.mpr ⟨hq1, hq1l⟩
  -- the list-valued partition is nonempty
  have h0 : ¬ (parameters.filter (fun p => p.2.isList)).length = 0 := by
    intro hc
    rw [List.length_eq_zero] at hc
    rw [hc] at hq1f
    cases hq1f
  -- every batch length is L
  have hlenf : ∀ q ∈ parameters.filter (fun p => p.2.isList), q.2.len = L := by
    intro q hq
    rcases List.mem_filter.mp hq with ⟨hqm, hql⟩
    exact hlen q hqm hql
  have hlens : ∀ x ∈ (parameters.filter (fun p => p.2.isList)).map
      (fun p => p.2.len), x = L := by
    intro x hx
    rcases List.mem_map.mp hx with ⟨q, hq, rfl⟩
    exact hlenf q hq
  have hlensne : (parameters.filter (fun p => p.2.isList)).map
      (fun p => p.2.len) ≠ [] := by
    intro hc
    exact h0 (List.length_eq_zero.mpr (List.map_eq_nil_iff.mp hc))
  have hmm : ¬ (((parameters.filter (fun p => p.2.isList)).map
        (fun p => p.2.len)).min?
      ≠ ((parameters.filter (fun p => p.2.isList)).map
        (fun p => p.2.len)).max?) := by
    rw [min?_all_eq hlensne hlens, max?_all_eq hlensne hlens]
    exact fun hc => hc rfl
  -- the head of the list partition has length L
  have hheadL : ((parameters.filter (fun p => p.2.isList)).headD
      ("", PVal.list [])).2.len = L := by
    cases hl : parameters.filter (fun p => p.2.isList) with
    | nil => rw [hl] at hq1f; cases hq1f
    | cons q0 rest =>
      have : q0 ∈ parameters.filter (fun p => p.2.isList) := by
        rw [hl]; exact List.mem_cons_self _ _
      exact hlenf q0 this
  -- the broadcasted input
  have hred1 := transform_parameters_batch_reduce m parameters h0 hmm
  rw [hheadL] at hred1
  -- every entry of the broadcasted input is a batch of length L
  have hBall : ∀ q ∈ ((parameters.filter (fun p => !p.2.isList)).map
        (fun p => (p.1, p.2.broadcast L))
      ++ parameters.filter (fun p => p.2.isList)),
      ∃ l0 : List α, q.2 = PVal.list l0 ∧ l0.length = L := by
    intro q hq
    rcases List.mem_append.mp hq with hq | hq
    · rcases List.mem_map.mp hq with ⟨p, hp, rfl⟩
      rcases List.mem_filter.mp hp with ⟨hpm, hps⟩
      rcases isList_eq_false_exists (by simpa using hps) with ⟨x, hx⟩
      exact ⟨List.replicate L x, by rw [hx]; rfl, List.length_replicate _ _⟩
    · rcases List.mem_filter.mp hq with ⟨hqm, hql⟩
      rcases isList_eq_true_exists hql with ⟨l0, hl0⟩
      refine ⟨l0, hl0, ?_⟩
      have := hlen q hqm hql
      rw [hl0] at this
      exact this
  -- every key of the broadcasted input is a key of the original input
  have hBkey : ∀ q ∈ ((parameters.filter (fun p => !p.2.isList)).map
        (fun p => (p.1, p.2.broadcast L))
      ++ parameters.filter (fun p => p.2.isList)),
      ∃ q0 ∈ parameters, q.1 = q0.1 := by
    intro q hq
    rcases List.mem_append.mp hq with hq | hq
    · rcases List.mem_map.mp hq with ⟨p, hp, rfl⟩
      exact ⟨p, (List.mem_filter.mp hp).1, rfl⟩
    · exact ⟨q, (List.mem_filter.mp hq).1, rfl⟩
  -- the transforms all resolve, so the mapped comprehension succeeds
  have htabs : ∃ tables, mapExcept m.applyTable
      ((parameters.filter (fun p => !p.2.isList)).map
          (fun p => (p.1, p.2.broadcast L))
        ++ parameters.filter (fun p => p.2.isList)) = .ok tables := by
    apply mapExcept_exists_ok
    intro q hq
    rcases hBkey q hq with ⟨q0, hq0, hkeq⟩
    have hhas : hasKey m.transformation_table q.1 = true := by
      rw [hkeq]; exact hlook q0 hq0
    have hsome : (dictLookup m.transformation_table q.1).isSome = true := by
      rw [dictLookup_isSome]; exact hhas
    rcases Option.isSome_iff_exists.mp hsome with ⟨tf, htf⟩
    refine ⟨tf q.2, ?_⟩
    unfold ImpactModel.applyTable
    rw [htf]
  rcases htabs with ⟨tables, htabs⟩
  -- reduce the broadcasted-input call
  have hBfil1 : (((parameters.filter (fun p => !p.2.isList)).map
        (fun p => (p.1, p.2.broadcast L))
      ++ parameters.filter (fun p => p.2.isList)).filter
        (fun p => p.2.isList))
      = ((parameters.filter (fun p => !p.2.isList)).map
          (fun p => (p.1, p.2.broadcast L))
        ++ parameters.filter (fun p => p.2.isList)) := by
    rw [List.filter_eq_self]
    intro q hq
    rcases hBall q hq with ⟨l0, hl0, _⟩
    rw [hl0]
    rfl
  have hBfil2 : (((parameters.filter (fun p => !p.2.isList)).map
        (fun p => (p.1, p.2.broadcast L))
      ++ parameters.filter (fun p => p.2.isList)).filter
        (fun p => !p.2.isList)) = [] := by
    rw [List.filter_eq_nil_iff]
    intro q hq
    rcases hBall q hq with ⟨l0, hl0, _⟩
    rw [hl0]
    simp [PVal.isList]
  have hBne : ((parameters.filter (fun p => !p.2.isList)).map
        (fun p => (p.1, p.2.broadcast L))
      ++ parameters.filter (fun p => p.2.isList)) ≠ [] := by
    intro hc
    rcases List.append_eq_nil.mp hc with ⟨-, hc2⟩
    rw [hc2] at hq1f
    cases hq1f
  have hB0 : ¬ (((parameters.filter (fun p => !p.2.isList)).map
        (fun p => (p.1, p.2.broadcast L))
      ++ parameters.filter (fun p => p.2.isList)).filter
        (fun p => p.2.isList)).length = 0 := by
    rw [hBfil1]
    intro hc
    exact hBne (List.length_eq_zero.mp hc)
  have hBlens : ∀ x ∈ (((parameters.filter (fun p => !p.2.isList)).map
        (fun p => (p.1, p.2.broadcast L))
      ++ parameters.filter (fun p => p.2.isList)).filter
        (fun p => p.2.isList)).map (fun p => p.2.len), x = L := by
    rw [hBfil1]
    intro x hx
    rcases List.mem_map.mp hx with ⟨q, hq, rfl⟩
    rcases hBall q hq with ⟨l0, hl0, hl0L⟩
    rw [hl0]
    exact hl0L
  have hBlensne : (((parameters.filter (fun p => !p.2.isList)).map
        (fun p => (p.1, p.2.broadcast L))
      ++ parameters.filter (fun p => p.2.isList)).filter
        (fun p => p.2.isList)).map (fun p => p.2.len) ≠ [] := by
    rw [hBfil1]
    intro hc
    exact hBne (List.map_eq_nil_iff.mp hc)
  have hBmm : ¬ ((((parameters.filter (fun p => !p.2.isList)).map
        (fun p => (p.1, p.2.broadcast L))
      ++ parameters.filter (fun p => p.2.isList)).filter
        (fun p => p.2.isList)).map (fun p => p.2.len)).min?
      ≠ ((((parameters.filter (fun p => !p.2.isList)).map
        (fun p => (p.1, p.2.broadcast L))
      ++ parameters.filter (fun p => p.2.isList)).filter
        (fun p => p.2.isList)).map (fun p => p.2.len)).max? := by
    rw [min?_all_eq hBlensne hBlens, max?_all_eq hBlensne hBlens]
    exact fun hc => hc rfl
  have hred2 := transform_parameters_batch_reduce m
    ((parameters.filter (fun p => !p.2.isList)).map
        (fun p => (p.1, p.2.broadcast L))
      ++ parameters.filter (fun p => p.2.isList)) hB0 hBmm
  rw [hBfil1, hBfil2] at hred2
  simp only [List.map_nil, List.nil_append] at hred2
  -- both calls reduce to the same comprehension over the broadcasted input
  constructor
  · rw [hred1, hred2]
  · refine ⟨mergeTables tables, ?_, ?_⟩
    · rw [hred1, htabs]
    · intro q hq
      rcases mem_mergeTables hq with ⟨t, ht, hqt⟩
      rcases forall₂_mem_right (mapExcept_ok_iff.mp htabs) ht
        with ⟨entry, hentry, happ⟩
      rcases hBall entry hentry with ⟨l0, hl0, hl0L⟩
      have hsome : (dictLookup m.transformation_table entry.1).isSome = true := by
        rw [dictLookup_isSome]
        rcases hBkey entry hentry with ⟨q0, hq0, hkeq⟩
        rw [hkeq]
        exact hlook q0 hq0
      rcases Option.isSome_iff_exists.mp hsome with ⟨tf, htf⟩
      have ht_eq : t = tf entry.2 := by
        have happ2 : m.applyTable entry = .ok (tf entry.2) := by
          unfold ImpactModel.applyTable
          rw [htf]
        rw [happ2] at happ
        exact (Except.ok.inj happ).symm
      rcases mem_pyDict (dictLookup_mem htf) with htf_mem
      rcases List.mem_map.mp htf_mem with ⟨p, hp, hpe⟩
      have hpt : p.transform = tf := congrArg Prod.snd hpe
      have hpq : q ∈ p.transform (PVal.list l0) := by
        rw [hpt, ← hl0, ← ht_eq]
        exact hqt
      exact htrans p hp l0 hl0L q hpq

/-- A mixed batch/scalar input over `sampleModel`, batches of length 2. -/
def sampleBatchInput : PDict (PVal Int) :=
  [("a", PVal.list [1, 2]), ("b", PVal.single 5)]

theorem transform_batch_broadcast_witness :
    (sampleModel.transform_parameters sampleBatchInput
      = sampleModel.transform_parameters
          ((sampleBatchInput.filter (fun p => !p.2.isList)).map
              (fun p => (p.1, p.2.broadcast 2))
            ++ sampleBatchInput.filter (fun p => p.2.isList)))
    ∧ ∃ d, sampleModel.transform_parameters sampleBatchInput = .ok d
        ∧ ∀ q ∈ d, ∃ out, q.2 = PVal.list out ∧ out.length = 2 :=
  transform_batch_broadcast sampleModel sampleBatchInput 2
    (by decide) (by decide) (by decide)
    (by
      intro p hp l hl q hq
      rcases List.mem_cons.mp hp with rfl | hp2
      · have hq2 : q = ("a_t", PVal.list l) := List.mem_singleton.mp hq
        rw [hq2]
        exact ⟨l, rfl, hl⟩
      · rcases List.mem_singleton.mp hp2 with rfl
        have hq2 : q = ("b_t", PVal.list l) := List.mem_singleton.mp hq
        rw [hq2]
        exact ⟨l, rfl, hl⟩)

/-- In a dict with no duplicate keys, searching from the back finds the
same entry as searching from the front. -/
theorem find?_reverse_of_nodup {l : PDict β} {k : String}
    (hnd : (l.map Prod.fst).Nodup) :
    l.reverse.find? (fun p => p.1 = k) = l.find? (fun p => p.1 = k) := by
  induction l with
  | nil => rfl
  | cons p rest ih =>
    rw [List.map_cons] at hnd
    rcases List.nodup_cons.mp hnd with ⟨hpk, hrest⟩
    rw [List.reverse_cons, List.find?_append]
    by_cases hp : p.1 = k
    · have hnone : rest.reverse.find? (fun q => q.1 = k) = none := by
        rw [List.find?_eq_none]
        intro q hq hdec
        apply hpk
        have hqk : q.1 = k := by simpa using hdec
        have hmem : q.1 ∈ rest.map Prod.fst :=
          List.mem_map.mpr ⟨q, List.mem_reverse.mp hq, rfl⟩
        rw [hqk, ← hp] at hmem
        exact hmem
      rw [hnone]
      simp [List.find?_cons, hp]
    · have hsing : List.find? (fun q => q.1 = k) [p] = none := by
        simp only [List.find?, decide_eq_false hp]
      rw [hsing, Option.or_none, ih hrest, List.find?_cons_of_neg]
      simpa using hp

/-- `get_default_values` of the empty name list is the empty dict. -/
theorem get_default_values_nil (ps : ImpactModelParams α) :
    ps.get_default_values [] = [] := by
  unfold ImpactModelParams.get_default_values
  rw [List.filter_eq_nil_iff.mpr (fun p _ => by simp)]
  rfl

/-- Replacing all defaults positionally keeps names and transforms. -/
theorem withDefaults_table_map {ps : List (ImpactModelParam α)} {ds : List α}
    (hds : ds.length = ps.length) :
    ((ps.zip ds).map
        (fun pd => ({ pd.1 with default := pd.2 } : ImpactModelParam α))).map
      (fun p => (p.name, p.transform))
      = ps.map (fun p => (p.name, p.transform)) := by
  induction ps generalizing ds with
  | nil => simp
  | cons p rest ih =>
    cases ds with
    | nil => simp at hds
    | cons d rest2 =>
      simp only [List.zip_cons_cons, List.map_cons]
      rw [ih (by simpa using hds)]

/-- C3: `get_scores` fetches default values for exactly the declared
parameter names absent from the caller input (the fetched dict's keys are
the missing names); the merged mapping keeps the caller's value at every
caller-supplied key; and when every declared name is supplied, replacing
all the declared defaults changes nothing — defaults are inert when
overridden. -/
theorem get_scores_defaults_inert (m : ImpactModel α σ)
    (params : PDict (PVal α))
    (hnd : (params.map Prod.fst).Nodup) :
    (dictKeys (m.parameters.get_default_values
        (m.parameters.get_missing_parameter_names params))
      = m.parameters.get_missing_parameter_names params)
    ∧ (∀ k, hasKey params k = true →
        dictLookup (pyMerge params (m.parameters.get_default_values
          (m.parameters.get_missing_parameter_names params))) k
          = dictLookup params k)
    ∧ (∀ ds : List α, ds.length = m.parameters.params.length →
        (∀ p ∈ m.parameters.params, hasKey params p.name = true) →
        ({ m with parameters := m.parameters.withDefaults ds } :
            ImpactModel α σ).get_scores params = m.get_scores params) := by
  refine ⟨?_, ?_, ?_⟩
  · -- the defaults' key set is exactly the missing-name list
    unfold ImpactModelParams.get_default_values
      ImpactModelParams.get_missing_parameter_names dictKeys
    rw [List.map_map]
    have hfc : m.parameters.params.filter
        (fun p => decide (p.name ∈ (m.parameters.params.filter
          (fun p2 => !hasKey params p2.name)).map (fun p2 => p2.name)))
        = m.parameters.params.filter (fun p => !hasKey params p.name) := by
      apply List.filter_congr
      intro p hp
      cases hhk : hasKey params p.name with
      | true =>
        have hnmem : ¬ (p.name ∈ (m.parameters.params.filter
            (fun p2 => !hasKey params p2.name)).map (fun p2 => p2.name)) := by
          intro hmem
          rcases List.mem_map.mp hmem with ⟨p2, hp2, hnm⟩
          rcases List.mem_filter.mp hp2 with ⟨-, hp2k⟩
          rw [Bool.not_eq_true'] at hp2k
          rw [hnm, hhk] at hp2k
          cases hp2k
        simp [hnmem, hhk]
      | false =>
        have hmem : p.name ∈ (m.parameters.params.filter
            (fun p2 => !hasKey params p2.name)).map (fun p2 => p2.name) :=
          List.mem_map.mpr ⟨p, List.mem_filter.mpr
            ⟨hp, by rw [Bool.not_eq_true']; exact hhk⟩, rfl⟩
        simp [hmem, hhk]
    rw [hfc]
    rfl
  · -- caller-supplied values win in the merged mapping
    intro k hkk
    unfold pyMerge
    rw [dictLookup_pyDict]
    unfold lastValue
    rw [List.reverse_append, List.find?_append]
    have hdnone : (m.parameters.get_default_values
        (m.parameters.get_missing_parameter_names params)).reverse.find?
          (fun p => p.1 = k) = none := by
      rw [List.find?_eq_none]
      intro q hq hdec
      have hqm := List.mem_reverse.mp hq
      unfold ImpactModelParams.get_default_values at hqm
      rcases List.mem_map.mp hqm with ⟨p, hp, hpq⟩
      rcases List.mem_filter.mp hp with ⟨-, hpn⟩
      have hqk : q.1 = k := by simpa using hdec
      have hpname : p.name = k := by rw [← hpq] at hqk; exact hqk
      unfold ImpactModelParams.get_missing_parameter_names at hpn
      have : decide (p.name ∈ (m.parameters.params.filter
          (fun p2 => !hasKey params p2.name)).map (fun p2 => p2.name))
          = true := hpn
      rw [decide_eq_true_eq] at this
      rcases List.mem_map.mp this with ⟨p2, hp2, hnm⟩
      rcases List.mem_filter.mp hp2 with ⟨-, hp2k⟩
      rw [Bool.not_eq_true'] at hp2k
      rw [hnm, hpname, hkk] at hp2k
      cases hp2k
    rw [hdnone]
    have := find?_reverse_of_nodup (l := params) (k := k) hnd
    unfold dictLookup
    rw [this]
    rfl
  · -- defaults are inert once every declared name is supplied
    intro ds hds hall
    have htab : ({ m with parameters := m.parameters.withDefaults ds } :
        ImpactModel α σ).transformation_table = m.transformation_table := by
      unfold ImpactModel.transformation_table
      exact congrArg pyDict (withDefaults_table_map hds)
    have happly : ∀ entry, ({ m with parameters := m.parameters.withDefaults ds } :
        ImpactModel α σ).applyTable entry = m.applyTable entry := by
      intro entry
      unfold ImpactModel.applyTable
      rw [htab]
    have htp : ∀ d, ({ m with parameters := m.parameters.withDefaults ds } :
        ImpactModel α σ).transform_parameters d = m.transform_parameters d := by
      intro d
      unfold ImpactModel.transform_parameters
      rw [funext happly]
    have hmiss1 : m.parameters.get_missing_parameter_names params = [] := by
      unfold ImpactModelParams.get_missing_parameter_names
      rw [List.filter_eq_nil_iff.mpr (fun p hp => by simp [hall p hp])]
      rfl
    have hmiss2 : (m.parameters.withDefaults ds).get_missing_parameter_names
        params = [] := by
      unfold ImpactModelParams.get_missing_parameter_names
      rw [List.filter_eq_nil_iff.mpr ?_]
      · rfl
      · intro p hp
        unfold ImpactModelParams.withDefaults at hp
        rcases List.mem_map.mp hp with ⟨pd, hpd, rfl⟩
        have hp1 : pd.1 ∈ m.parameters.params := (List.of_mem_zip hpd).1
        simp [hall pd.1 hp1]
    simp only [ImpactModel.get_scores]
    rw [hmiss1, hmiss2, get_default_values_nil, get_default_values_nil, htp]

theorem get_scores_defaults_inert_witness :
    (dictKeys (sampleModel.parameters.get_default_values
        (sampleModel.parameters.get_missing_parameter_names sampleScalarInput))
      = sampleModel.parameters.get_missing_parameter_names sampleScalarInput)
    ∧ (∀ k, hasKey sampleScalarInput k = true →
        dictLookup (pyMerge sampleScalarInput
          (sampleModel.parameters.get_default_values
            (sampleModel.parameters.get_missing_parameter_names
              sampleScalarInput))) k
          = dictLookup sampleScalarInput k)
    ∧ (∀ ds : List Int, ds.length = sampleModel.parameters.params.length →
        (∀ p ∈ sampleModel.parameters.params,
          hasKey sampleScalarInput p.name = true) →
        ({ sampleModel with
            parameters := sampleModel.parameters.withDefaults ds } :
            ImpactModel Int Int).get_scores sampleScalarInput
          = sampleModel.get_scores sampleScalarInput) :=
  get_scores_defaults_inert sampleModel sampleScalarInput (by decide)

/-- C7: the record list built by `get_nodes_scores` holds exactly one
`NodeScores` per node of the flattened tree, positionally: the `i`-th
record carries the `i`-th unnested descendant's name, its properties, its
parent's name (or `""` for the root), and that node's own compute called
with `direct_impacts` set exactly when a grouping property was supplied;
with no grouping property the method returns this list unchanged, and
with one it returns the pooled combination of this list. -/
theorem get_nodes_scores_per_node (m : ImpactModel α σ)
    (combine_by_property : List (NodeScores σ) → String → List (NodeScores σ))
    (by_property : Option String) (params : PDict (PVal α))
    (tp : PDict (PVal α))
    (ht : m.transform_parameters (pyMerge params
        (m.parameters.get_default_values
          (m.parameters.get_missing_parameter_names params))) = .ok tp) :
    (m.node_scores_list by_property tp).length
        = m.tree.unnested_descendants.length
    ∧ (∀ i : Nat, (m.node_scores_list by_property tp)[i]?
        = (m.tree.unnested_descendants[i]?).map (fun node =>
            { name := node.name
              properties := node.properties
              parent := match node.parent with
                | some parent_name => parent_name
                | none => ""
              lcia_scores := node.compute tp by_property.isSome }))
    ∧ m.get_nodes_scores combine_by_property none params
        = .ok (m.node_scores_list none tp)
    ∧ (∀ prop, m.get_nodes_scores combine_by_property (some prop) params
        = .ok (combine_by_property (m.node_scores_list (some prop) tp) prop)) := by
  refine ⟨?_, ?_, ?_, ?_⟩
  · unfold ImpactModel.node_scores_list
    exact List.length_map _ _
  · intro i
    unfold ImpactModel.node_scores_list
    exact List.getElem?_map _ _ _
  · simp only [ImpactModel.get_nodes_scores]
    rw [ht]
  · intro prop
    simp only [ImpactModel.get_nodes_scores]
    rw [ht]

theorem get_nodes_scores_per_node_witness :
    ((sampleModel.node_scores_list none
        [("a_t", PVal.single 5), ("b_t", PVal.single 6)]).length
      = sampleModel.tree.unnested_descendants.length)
    ∧ (∀ i : Nat, (sampleModel.node_scores_list none
          [("a_t", PVal.single 5), ("b_t", PVal.single 6)])[i]?
        = (sampleModel.tree.unnested_descendants[i]?).map (fun node =>
            { name := node.name
              properties := node.properties
              parent := match node.parent with
                | some parent_name => parent_name
                | none => ""
              lcia_scores := node.compute
                [("a_t", PVal.single 5), ("b_t", PVal.single 6)]
                (none : Option String).isSome }))
    ∧ sampleModel.get_nodes_scores (fun s _ => s) none sampleScalarInput
        = .ok (sampleModel.node_scores_list none
            [("a_t", PVal.single 5), ("b_t", PVal.single 6)])
    ∧ (∀ prop, sampleModel.get_nodes_scores (fun s _ => s) (some prop)
          sampleScalarInput
        = .ok ((fun (s : List (NodeScores Int)) (_ : String) => s)
            (sampleModel.node_scores_list (some prop)
              [("a_t", PVal.single 5), ("b_t", PVal.single 6)]) prop)) :=
  get_nodes_scores_per_node sampleModel (fun s _ => s) none sampleScalarInput
    [("a_t", PVal.single 5), ("b_t", PVal.single 6)] (by rfl)

theorem mem_enum_spec {l : List γ} {iv : Nat × γ} (h : iv ∈ l.enum) :
    iv.1 < l.length ∧ l[iv.1]? = some iv.2 := by
  rcases List.mem_iff_getElem.mp h with ⟨n, hn, hval⟩
  rw [List.enum_length] at hn
  rw [List.getElem_enum] at hval
  subst hval
  exact ⟨hn, List.getElem?_eq_some.mpr ⟨hn, rfl⟩⟩

theorem enum_mem_of_getElem? {l : List γ} {i : Nat} {v : γ}
    (h : l[i]? = some v) : (i, v) ∈ l.enum := by
  rcases List.getElem?_eq_some.mp h with ⟨hi, hv⟩
  rw [List.mem_iff_getElem]
  refine ⟨i, by rw [List.enum_length]; exact hi, ?_⟩
  rw [List.getElem_enum, hv]

theorem mem_of_getElem?_eq_some {l : List γ} {i : Nat} {v : γ}
    (h : l[i]? = some v) : v ∈ l := by
  rcases List.getElem?_eq_some.mp h with ⟨hi, hv⟩
  rw [List.mem_iff_getElem]
  exact ⟨i, hi, hv⟩

theorem sum_map_length_const {ls : List (List γ)} {c : Nat}
    (h : ∀ t ∈ ls, t.length = c) :
    (ls.map List.length).sum = ls.length * c := by
  induction ls with
  | nil => simp
  | cons t rest ih =>
    simp only [List.map_cons, List.sum_cons, List.length_cons]
    rw [h t (List.mem_cons_self _ _),
      ih (fun z hz => h z (List.mem_cons_of_mem _ hz))]
    ring

/-- The inner comprehension of `get_sobol_s1_indices` for one impact
method: one record per `S1` position, paired with the problem name at
that position. -/
theorem sobol_inner_block_ok (names : List String) (node_name mth : String)
    (s1 : List σ) (hk1 : s1.length = names.length) :
    ∃ block, mapExcept (fun iv : Nat × σ =>
        match namesAt names iv.1 with
        | .error e => .error e
        | .ok pname => .ok (SobolRecord.mk node_name mth pname iv.2))
      s1.enum = .ok block
      ∧ block.length = names.length
      ∧ (∀ r ∈ block, r.node = node_name ∧ r.method = mth
          ∧ r.parameter ∈ names)
      ∧ (∀ i : Nat, ∀ pname v, names[i]? = some pname → s1[i]? = some v →
          SobolRecord.mk node_name mth pname v ∈ block) := by
  have hgood : ∀ iv ∈ s1.enum, ∃ y, ((fun iv : Nat × σ =>
      match namesAt names iv.1 with
      | .error e => .error e
      | .ok pname => .ok (SobolRecord.mk node_name mth pname iv.2)) :
        Nat × σ → Except PyErr (SobolRecord σ)) iv
        = .ok y := by
    intro iv hiv
    rcases mem_enum_spec hiv with ⟨hlt, -⟩
    have hlt2 : iv.1 < names.length := by rw [← hk1]; exact hlt
    have hnm : names[iv.1]? = some (names.get ⟨iv.1, hlt2⟩) :=
      List.getElem?_eq_some.mpr ⟨hlt2, rfl⟩
    refine ⟨SobolRecord.mk node_name mth (names.get ⟨iv.1, hlt2⟩) iv.2, ?_⟩
    simp only [namesAt, hnm]
  rcases mapExcept_exists_ok hgood with ⟨block, hblock⟩
  refine ⟨block, hblock, ?_, ?_, ?_⟩
  · rw [mapExcept_ok_length hblock, List.enum_length, hk1]
  · intro r hr
    rcases forall₂_mem_right (mapExcept_ok_iff.mp hblock) hr
      with ⟨iv, hiv, happ⟩
    cases hnm : namesAt names iv.1 with
    | error e => rw [hnm] at happ; cases happ
    | ok pname =>
      rw [hnm] at happ
      have hrec := Except.ok.inj happ
      have hpn : pname ∈ names := by
        unfold namesAt at hnm
        cases hq : names[iv.1]? with
        | none => rw [hq] at hnm; cases hnm
        | some s =>
          rw [hq] at hnm
          have : s = pname := Except.ok.inj hnm
          exact this ▸ mem_of_getElem?_eq_some hq
      rw [← hrec]
      exact ⟨rfl, rfl, hpn⟩
  · intro i pname v hnm hs1
    have hiv : (i, v) ∈ s1.enum := enum_mem_of_getElem? hs1
    rcases forall₂_mem_left (mapExcept_ok_iff.mp hblock) hiv
      with ⟨r, hr, happ⟩
    have hname : namesAt names i = .ok pname := by
      unfold namesAt
      rw [hnm]
    rw [hname] at happ
    rw [← Except.ok.inj happ] at hr
    exact hr

/-- The per-unit loop of `get_sobol_s1_indices`: record count and record
contents for one score collection. -/
theorem sobol_records_for_ok (m : ImpactModel α σ)
    (analyze : List String → σ → Bool → List σ)
    (node_name : String) (scores : PDict σ)
    (hk : ∀ ys b, (analyze m.parameters.sobol_problem_names ys b).length
        = m.parameters.sobol_problem_names.length) :
    ∃ recs, m.sobol_records_for analyze node_name scores = .ok recs
      ∧ recs.length
          = scores.length * m.parameters.sobol_problem_names.length
      ∧ (∀ r ∈ recs, r.node = node_name
          ∧ r.parameter ∈ m.parameters.sobol_problem_names)
      ∧ (∀ ms ∈ scores, ∀ i : Nat, ∀ pname v,
          m.parameters.sobol_problem_names[i]? = some pname →
          (analyze m.parameters.sobol_problem_names ms.2 true)[i]? = some v →
          SobolRecord.mk node_name ms.1 pname v ∈ recs) := by
  have hblocks := fun (ms : String × σ) =>
    sobol_inner_block_ok m.parameters.sobol_problem_names node_name ms.1
      (analyze m.parameters.sobol_problem_names ms.2 true) (hk ms.2 true)
  have houter : ∃ recss, mapExcept (fun ms : String × σ =>
      mapExcept (fun iv : Nat × σ =>
          match namesAt m.parameters.sobol_problem_names iv.1 with
          | .error e => .error e
          | .ok pname => .ok (SobolRecord.mk node_name ms.1 pname iv.2))
        (analyze m.parameters.sobol_problem_names ms.2 true).enum)
      scores = .ok recss := by
    apply mapExcept_exists_ok
    intro ms hms
    rcases hblocks ms with ⟨block, hb, -⟩
    exact ⟨block, hb⟩
  rcases houter with ⟨recss, houter⟩
  have hforall := mapExcept_ok_iff.mp houter
  refine ⟨recss.flatten, ?_, ?_, ?_, ?_⟩
  · unfold ImpactModel.sobol_records_for
    rw [houter]
  · rw [List.length_flatten]
    have hlens : ∀ t ∈ recss, t.length
        = m.parameters.sobol_problem_names.length := by
      intro t ht
      rcases forall₂_mem_right hforall ht with ⟨ms, hms, happ⟩
      rcases hblocks ms with ⟨block, hb, hbl, -, -⟩
      rw [hb] at happ
      rw [← Except.ok.inj happ]
      exact hbl
    rw [sum_map_length_const hlens, ← hforall.length_eq]
  · intro r hr
    rcases List.mem_flatten.mp hr with ⟨t, ht, hrt⟩
    rcases forall₂_mem_right hforall ht with ⟨ms, hms, happ⟩
    rcases hblocks ms with ⟨block, hb, -, hprops, -⟩
    rw [hb] at happ
    rw [← Except.ok.inj happ] at hrt
    rcases hprops r hrt with ⟨h1, -, h3⟩
    exact ⟨h1, h3⟩
  · intro ms hms i pname v hnm hs1
    rcases forall₂_mem_left hforall hms with ⟨t, ht, happ⟩
    rcases hblocks ms with ⟨block, hb, -, -, hmem⟩
    rw [hb] at happ
    have hbt : block = t := Except.ok.inj happ
    exact List.mem_flatten.mpr ⟨t, ht, hbt ▸ hmem i pname v hnm hs1⟩

/-- C4: `get_sobol_s1_indices` emits, when the analysis succeeds, exactly
`|methods| × |parameters|` records with `all_nodes = false`, and exactly
`|nodes| × |methods| × |parameters|` records with `all_nodes = true`
(`|parameters|` counts the sensitivity problem descriptor's names, and
each node's score collection holds `|methods| = M` methods); every record
carries a node name, a method name, and a parameter name drawn from the
problem descriptor, alongside its index value. -/
theorem sobol_s1_record_counts (m : ImpactModel α σ)
    (analyze : List String → σ → Bool → List σ)
    (combine_by_property : List (NodeScores σ) → String → List (NodeScores σ))
    (n : Nat) (M : Nat)
    (hk : ∀ ys b, (analyze m.parameters.sobol_problem_names ys b).length
        = m.parameters.sobol_problem_names.length) :
    (∀ sc, m.get_scores (m.parameters.draw_to_distrib
          (m.parameters.sobol_draw n)) = .ok sc →
      sc.length = M →
      ∃ l, m.get_sobol_s1_indices analyze combine_by_property n false = .ok l
        ∧ l.length = M * m.parameters.sobol_problem_names.length
        ∧ ∀ r ∈ l, r.node = m.tree.root.name
            ∧ r.parameter ∈ m.parameters.sobol_problem_names)
    ∧ (∀ nss, m.get_nodes_scores combine_by_property none
          (m.parameters.draw_to_distrib (m.parameters.sobol_draw n))
            = .ok nss →
      (∀ ns ∈ nss, ns.lcia_scores.length = M) →
      nss.length = m.tree.unnested_descendants.length
      ∧ ∃ l, m.get_sobol_s1_indices analyze combine_by_property n true = .ok l
        ∧ l.length = m.tree.unnested_descendants.length * M
            * m.parameters.sobol_problem_names.length
        ∧ ∀ r ∈ l, r.parameter ∈ m.parameters.sobol_problem_names) := by
  constructor
  · intro sc hsc hM
    rcases sobol_records_for_ok m analyze m.tree.root.name sc hk
      with ⟨recs, hrecs, hlen, hprops, -⟩
    refine ⟨recs, ?_, ?_, ?_⟩
    · simp only [ImpactModel.get_sobol_s1_indices]
      rw [if_neg Bool.false_ne_true, hsc]
      exact hrecs
    · rw [hlen, hM]
    · intro r hr
      exact hprops r hr
  · intro nss hnss hM
    have hnss2 := hnss
    simp only [ImpactModel.get_nodes_scores] at hnss2
    have hnss_eq : ∃ tp, m.node_scores_list none tp = nss := by
      cases htp : m.transform_parameters (pyMerge
          (m.parameters.draw_to_distrib (m.parameters.sobol_draw n))
          (m.parameters.get_default_values
            (m.parameters.get_missing_parameter_names
              (m.parameters.draw_to_distrib
                (m.parameters.sobol_draw n))))) with
      | error e => rw [htp] at hnss2; cases hnss2
      | ok tp =>
        rw [htp] at hnss2
        exact ⟨tp, Except.ok.inj hnss2⟩
    rcases hnss_eq with ⟨tp, hnss_eq⟩
    have hcount : nss.length = m.tree.unnested_descendants.length := by
      rw [← hnss_eq]
      unfold ImpactModel.node_scores_list
      exact List.length_map _ _
    refine ⟨hcount, ?_⟩
    have houter : ∃ recss, mapExcept
        (fun node_scores : NodeScores σ =>
          m.sobol_records_for analyze node_scores.name node_scores.lcia_scores)
        nss = .ok recss := by
      apply mapExcept_exists_ok
      intro ns hns
      rcases sobol_records_for_ok m analyze ns.name ns.lcia_scores hk
        with ⟨recs, hrecs, -, -, -⟩
      exact ⟨recs, hrecs⟩
    rcases houter with ⟨recss, houter⟩
    have hforall := mapExcept_ok_iff.mp houter
    have hlens : ∀ t ∈ recss,
        t.length = M * m.parameters.sobol_problem_names.length := by
      intro t ht
      rcases forall₂_mem_right hforall ht with ⟨ns, hns, happ⟩
      rcases sobol_records_for_ok m analyze ns.name ns.lcia_scores hk
        with ⟨recs, hrecs, hrl, -, -⟩
      rw [hrecs] at happ
      rw [← Except.ok.inj happ, hrl, hM ns hns]
    refine ⟨recss.flatten, ?_, ?_, ?_⟩
    · simp only [ImpactModel.get_sobol_s1_indices]
      rw [if_pos trivial, hnss]
      show (match mapExcept (fun node_scores : NodeScores σ =>
          m.sobol_records_for analyze node_scores.name node_scores.lcia_scores)
            nss with
        | Except.error e => Except.error e
        | Except.ok recss => Except.ok recss.flatten)
          = Except.ok recss.flatten
      rw [houter]
    · rw [List.length_flatten, sum_map_length_const hlens,
        ← hforall.length_eq, hcount, Nat.mul_assoc]
    · intro r hr
      rcases List.mem_flatten.mp hr with ⟨t, ht, hrt⟩
      rcases forall₂_mem_right hforall ht with ⟨ns, hns, happ⟩
      rcases sobol_records_for_ok m analyze ns.name ns.lcia_scores hk
        with ⟨recs, hrecs, -, hprops, -⟩
      rw [hrecs] at happ
      rw [← Except.ok.inj happ] at hrt
      exact (hprops r hrt).2

/-- A concrete stand-in for the Sobol analysis: one index per problem
name (here the constant `-1`, a legal estimator artifact). -/
def sampleAnalyze : List String → Int → Bool → List Int :=
  fun names _ _ => names.map (fun _ => -1)

theorem sobol_s1_record_counts_witness :
    (∃ l, sampleModel.get_sobol_s1_indices sampleAnalyze (fun s _ => s) 8 false
        = .ok l
      ∧ l.length = 1 * sampleModel.parameters.sobol_problem_names.length
      ∧ ∀ r ∈ l, r.node = sampleModel.tree.root.name
          ∧ r.parameter ∈ sampleModel.parameters.sobol_problem_names)
    ∧ ([NodeScores.mk "fu" [("family", "root")] "" [("gwp", 1)],
        NodeScores.mk "leaf" [("family", "part")] "fu" [("gwp", 2)]].length
          = sampleModel.tree.unnested_descendants.length
      ∧ ∃ l, sampleModel.get_sobol_s1_indices sampleAnalyze (fun s _ => s) 8
            true = .ok l
        ∧ l.length = sampleModel.tree.unnested_descendants.length * 1
            * sampleModel.parameters.sobol_problem_names.length
        ∧ ∀ r ∈ l, r.parameter ∈ sampleModel.parameters.sobol_problem_names) :=
  ⟨(sobol_s1_record_counts sampleModel sampleAnalyze (fun s _ => s) 8 1
      (by intro ys b; exact List.length_map _ _)).1
    [("gwp", 2)] (by rfl) (by rfl),
   (sobol_s1_record_counts sampleModel sampleAnalyze (fun s _ => s) 8 1
      (by intro ys b; exact List.length_map _ _)).2
    [NodeScores.mk "fu" [("family", "root")] "" [("gwp", 1)],
     NodeScores.mk "leaf" [("family", "part")] "fu" [("gwp", 2)]]
    (by rfl) (by decide)⟩

/-- C8: every Sobol analysis run by `get_sobol_s1_indices` is invoked
with `calc_second_order = true` (the records are built from the vector
`analyze names scores true`), and each emitted record pairs the raw `S1`
value at position `i` — unmodified, so negative estimates pass through —
with the problem descriptor's name at the same position `i`: whenever
`names[i] = pname` and `(analyze names scores true)[i] = v`, the record
`(node, method, pname, v)` is in the output, in both the root and the
per-node mode. -/
theorem sobol_s1_raw_pairing (m : ImpactModel α σ)
    (analyze : List String → σ → Bool → List σ)
    (combine_by_property : List (NodeScores σ) → String → List (NodeScores σ))
    (n : Nat)
    (hk : ∀ ys b, (analyze m.parameters.sobol_problem_names ys b).length
        = m.parameters.sobol_problem_names.length) :
    (∀ sc, m.get_scores (m.parameters.draw_to_distrib
          (m.parameters.sobol_draw n)) = .ok sc →
      ∃ l, m.get_sobol_s1_indices analyze combine_by_property n false = .ok l
        ∧ ∀ ms ∈ sc, ∀ i : Nat, ∀ pname v,
            m.parameters.sobol_problem_names[i]? = some pname →
            (analyze m.parameters.sobol_problem_names ms.2 true)[i]? = some v →
            SobolRecord.mk m.tree.root.name ms.1 pname v ∈ l)
    ∧ (∀ nss, m.get_nodes_scores combine_by_property none
          (m.parameters.draw_to_distrib (m.parameters.sobol_draw n))
            = .ok nss →
      ∃ l, m.get_sobol_s1_indices analyze combine_by_property n true = .ok l
        ∧ ∀ ns ∈ nss, ∀ ms ∈ ns.lcia_scores, ∀ i : Nat, ∀ pname v,
            m.parameters.sobol_problem_names[i]? = some pname →
            (analyze m.parameters.sobol_problem_names ms.2 true)[i]? = some v →
            SobolRecord.mk ns.name ms.1 pname v ∈ l) := by
  constructor
  · intro sc hsc
    rcases sobol_records_for_ok m analyze m.tree.root.name sc hk
      with ⟨recs, hrecs, -, -, hmem⟩
    refine ⟨recs, ?_, ?_⟩
    · simp only [ImpactModel.get_sobol_s1_indices]
      rw [if_neg Bool.false_ne_true, hsc]
      exact hrecs
    · intro ms hms i pname v hnm hs1
      exact hmem ms hms i pname v hnm hs1
  · intro nss hnss
    have houter : ∃ recss, mapExcept
        (fun node_scores : NodeScores σ =>
          m.sobol_records_for analyze node_scores.name node_scores.lcia_scores)
        nss = .ok recss := by
      apply mapExcept_exists_ok
      intro ns hns
      rcases sobol_records_for_ok m analyze ns.name ns.lcia_scores hk
        with ⟨recs, hrecs, -, -, -⟩
      exact ⟨recs, hrecs⟩
    rcases houter with ⟨recss, houter⟩
    have hforall := mapExcept_ok_iff.mp houter
    refine ⟨recss.flatten, ?_, ?_⟩
    · simp only [ImpactModel.get_sobol_s1_indices]
      rw [if_pos trivial, hnss]
      show (match mapExcept (fun node_scores : NodeScores σ =>
          m.sobol_records_for analyze node_scores.name node_scores.lcia_scores)
            nss with
        | Except.error e => Except.error e
        | Except.ok recss => Except.ok recss.flatten)
          = Except.ok recss.flatten
      rw [houter]
    · intro ns hns ms hms i pname v hnm hs1
      rcases forall₂_mem_left hforall hns with ⟨t, ht, happ⟩
      rcases sobol_records_for_ok m analyze ns.name ns.lcia_scores hk
        with ⟨recs, hrecs, -, -, hmem⟩
      rw [hrecs] at happ
      have hteq : recs = t := Except.ok.inj happ
      exact List.mem_flatten.mpr
        ⟨t, ht, hteq ▸ hmem ms hms i pname v hnm hs1⟩

theorem sobol_s1_raw_pairing_witness :
    (∃ l, sampleModel.get_sobol_s1_indices sampleAnalyze (fun s _ => s) 4 false
        = .ok l
      ∧ ∀ ms ∈ ([("gwp", 2)] : PDict Int), ∀ i : Nat, ∀ pname v,
          sampleModel.parameters.sobol_problem_names[i]? = some pname →
          (sampleAnalyze sampleModel.parameters.sobol_problem_names ms.2
            true)[i]? = some v →
          SobolRecord.mk sampleModel.tree.root.name ms.1 pname v ∈ l)
    ∧ (∃ l, sampleModel.get_sobol_s1_indices sampleAnalyze (fun s _ => s) 4
          true = .ok l
      ∧ ∀ ns ∈ [NodeScores.mk "fu" [("family", "root")] "" [("gwp", 1)],
            NodeScores.mk "leaf" [("family", "part")] "fu" [("gwp", 2)]],
          ∀ ms ∈ ns.lcia_scores, ∀ i : Nat, ∀ pname v,
            sampleModel.parameters.sobol_problem_names[i]? = some pname →
            (sampleAnalyze sampleModel.parameters.sobol_problem_names ms.2
              true)[i]? = some v →
            SobolRecord.mk ns.name ms.1 pname v ∈ l) :=
  ⟨(sobol_s1_raw_pairing sampleModel sampleAnalyze (fun s _ => s) 4
      (by intro ys b; exact List.length_map _ _)).1 [("gwp", 2)] (by rfl),
   (sobol_s1_raw_pairing sampleModel sampleAnalyze (fun s _ => s) 4
      (by intro ys b; exact List.length_map _ _)).2
    [NodeScores.mk "fu" [("family", "root")] "" [("gwp", 1)],
     NodeScores.mk "leaf" [("family", "part")] "fu" [("gwp", 2)]]
    (by rfl)⟩

/-- The heap embedding agrees with the pure embedding: reading the
argument at `r`, the call extends the heap by freshly allocated cells
(`ext`, plus the result cell on success) and never writes an existing
cell. -/
theorem transform_parameters_heap_spec (m : ImpactModel α σ) (h : Heap α)
    (r : Nat) (ps : PDict (PVal α)) (hps : h[r]? = some ps) :
    ∃ ext, m.transform_parameters_heap h r
      = match m.transform_parameters ps with
        | .error e => (h ++ ext, .error (.py e))
        | .ok d => (h ++ ext ++ [d], .ok (h ++ ext).length) := by
  by_cases h0 : (ps.filter (fun p => p.2.isList)).length = 0
  · cases hmap : mapExcept m.applyTable ps with
    | error e =>
      have hpure : m.transform_parameters ps = Except.error e := by
        simp only [ImpactModel.transform_parameters]
        rw [if_pos h0, hmap]
      refine ⟨[ps.filter (fun p => p.2.isList),
        ps.filter (fun p => !p.2.isList)], ?_⟩
      simp only [ImpactModel.transform_parameters_heap, hps]
      rw [if_pos h0, hmap, hpure]
    | ok tables =>
      have hpure : m.transform_parameters ps = Except.ok (mergeTables tables) := by
        simp only [ImpactModel.transform_parameters]
        rw [if_pos h0, hmap]
      refine ⟨[ps.filter (fun p => p.2.isList),
        ps.filter (fun p => !p.2.isList)], ?_⟩
      simp only [ImpactModel.transform_parameters_heap, hps]
      rw [if_pos h0, hmap, hpure]
  · by_cases hmm : ((ps.filter (fun p => p.2.isList)).map
        (fun p => p.2.len)).min?
      ≠ ((ps.filter (fun p => p.2.isList)).map (fun p => p.2.len)).max?
    · have hpure : m.transform_parameters ps = Except.error .assertionError := by
        simp only [ImpactModel.transform_parameters]
        rw [if_neg h0, if_pos hmm]
      refine ⟨[ps.filter (fun p => p.2.isList),
        ps.filter (fun p => !p.2.isList)], ?_⟩
      simp only [ImpactModel.transform_parameters_heap, hps]
      rw [if_neg h0, if_pos hmm, hpure]
    · cases hmap : mapExcept m.applyTable
          ((ps.filter (fun p => !p.2.isList)).map
              (fun p => (p.1, p.2.broadcast
                ((ps.filter (fun p => p.2.isList)).headD
                  ("", PVal.list [])).2.len))
            ++ ps.filter (fun p => p.2.isList)) with
      | error e =>
        have hpure : m.transform_parameters ps = Except.error e := by
          simp only [ImpactModel.transform_parameters]
          rw [if_neg h0, if_neg hmm, hmap]
        refine ⟨[ps.filter (fun p => p.2.isList),
          ps.filter (fun p => !p.2.isList),
          (ps.filter (fun p => !p.2.isList)).map
              (fun p => (p.1, p.2.broadcast
                ((ps.filter (fun p => p.2.isList)).headD
                  ("", PVal.list [])).2.len))
            ++ ps.filter (fun p => p.2.isList)], ?_⟩
        simp only [ImpactModel.transform_parameters_heap, hps]
        rw [if_neg h0, if_neg hmm, hmap, hpure]
        simp [List.append_assoc]
      | ok tables =>
        have hpure : m.transform_parameters ps
            = Except.ok (mergeTables tables) := by
          simp only [ImpactModel.transform_parameters]
          rw [if_neg h0, if_neg hmm, hmap]
        refine ⟨[ps.filter (fun p => p.2.isList),
          ps.filter (fun p => !p.2.isList),
          (ps.filter (fun p => !p.2.isList)).map
              (fun p => (p.1, p.2.broadcast
                ((ps.filter (fun p => p.2.isList)).headD
                  ("", PVal.list [])).2.len))
            ++ ps.filter (fun p => p.2.isList)], ?_⟩
        simp only [ImpactModel.transform_parameters_heap, hps]
        rw [if_neg h0, if_neg hmm, hmap, hpure]
        simp [List.append_assoc, List.length_append]

/-- C10: `transform_parameters` mutates nothing: in the heap embedding —
where dict objects live in a heap, the argument is passed by reference,
and every dict comprehension allocates a fresh cell — every pre-existing
cell (the argument dict at `r` included) still holds exactly its old
entries after the call, the model value `m` is untouched (it is passed
and returned by value in the pure embedding), the result agrees with the
pure `transform_parameters`, and on success the returned reference is a
freshly allocated cell (`h.length ≤ r2`), not the argument. -/
theorem transform_parameters_no_mutation (m : ImpactModel α σ) (h : Heap α)
    (r : Nat) (ps : PDict (PVal α)) (hps : h[r]? = some ps) :
    (∀ i, i < h.length → (m.transform_parameters_heap h r).1[i]? = h[i]?)
    ∧ (∀ e, m.transform_parameters ps = .error e →
        (m.transform_parameters_heap h r).2 = .error (.py e))
    ∧ (∀ d, m.transform_parameters ps = .ok d →
        ∃ r2, (m.transform_parameters_heap h r).2 = .ok r2
          ∧ h.length ≤ r2
          ∧ (m.transform_parameters_heap h r).1[r2]? = some d) := by
  rcases transform_parameters_heap_spec m h r ps hps with ⟨ext, hspec⟩
  refine ⟨?_, ?_, ?_⟩
  · intro i hi
    rw [hspec]
    cases hp : m.transform_parameters ps with
    | error e =>
      simp only []
      exact List.getElem?_append_left hi
    | ok d =>
      simp only []
      rw [List.getElem?_append_left (show i < (h ++ ext).length by
        rw [List.length_append]
        exact Nat.lt_of_lt_of_le hi (Nat.le_add_right _ _))]
      exact List.getElem?_append_left hi
  · intro e he
    rw [hspec, he]
  · intro d hd
    rw [hspec, hd]
    refine ⟨(h ++ ext).length, rfl, ?_, ?_⟩
    · rw [List.length_append]
      exact Nat.le_add_right _ _
    · simp only []
      rw [List.getElem?_append_right (le_refl _)]
      simp

theorem transform_parameters_no_mutation_witness :
    (∀ i, i < ([sampleBatchInput] : Heap Int).length →
      (sampleModel.transform_parameters_heap [sampleBatchInput] 0).1[i]?
        = ([sampleBatchInput] : Heap Int)[i]?)
    ∧ (∀ e, sampleModel.transform_parameters sampleBatchInput = .error e →
        (sampleModel.transform_parameters_heap [sampleBatchInput] 0).2
          = .error (.py e))
    ∧ (∀ d, sampleModel.transform_parameters sampleBatchInput = .ok d →
        ∃ r2, (sampleModel.transform_parameters_heap [sampleBatchInput] 0).2
            = .ok r2
          ∧ ([sampleBatchInput] : Heap Int).length ≤ r2
          ∧ (sampleModel.transform_parameters_heap [sampleBatchInput] 0).1[r2]?
              = some d) :=
  transform_parameters_no_mutation sampleModel [sampleBatchInput] 0
    sampleBatchInput (by rfl)

end Apparun
